import Mathlib

/-!
Verification of `omarchy-ai-assist` against its specification.

Shallow embedding of:
* `src/speccy-kit/tools/chunker.py`   (sliding-window chunk splitter)
* `src/speccy-kit/tools/condenser.py` (exact / near duplicate condenser)
* `src/tools/prompt_annealer.py`      (mutation engine and annealing acceptance)

Texts are `List Char`; Python integers are `ℕ`/`ℤ`; the float Jaccard
threshold is `ℚ`; SHA-256 digests (an external library, `hashlib`) are
modelled as abstract functions `List Char → ℕ` passed as parameters, with
collision-freeness stated as a local injectivity hypothesis where a claim
needs it.  Randomness (`random.randrange`, `random.sample`, …) is modelled
by explicit inputs reduced modulo the range size.
-/

/-! ### Chunker (`src/speccy-kit/tools/chunker.py`)

The loop in `main` is

    start = 0
    while start < len(content):
        end = start + max_chars
        if end > len(content): end = len(content)
        chunks.append(content[start:end])
        start += max_chars - overlap

`start` lives in `ℤ` (Python integers are signed; for `overlap > max_chars`
the step is negative).  The slice `content[start:end]` is modelled as
`(content.drop start.toNat).take m`, which agrees with Python for
`start ≥ 0`; no claim inspects the chunk values at a negative `start`.
The unbounded `while` is rendered with fuel: `none` means the fuel ran out
with the loop condition still true. -/

def chunkerFuel (content : List Char) (m o : ℕ) : ℕ → ℤ → Option (List (List Char))
  | 0, start => if start < (content.length : ℤ) then none else some []
  | fuel + 1, start =>
    if start < (content.length : ℤ) then
      (chunkerFuel content m o fuel (start + ((m : ℤ) - (o : ℤ)))).map
        (fun rest => ((content.drop start.toNat).take m) :: rest)
    else some []

/-- The chunk list produced by `main`.  For a positive step the loop makes at
most `content.length` iterations, so `content.length + 1` fuel is enough. -/
def chunkerChunks (content : List Char) (m o : ℕ) : Option (List (List Char)) :=
  chunkerFuel content m o (content.length + 1) 0

/-- One JSONL record written by the chunker: `pack_id`, `source`, `sha256`
(of the whole file content, field `sha`), and the chunk `text`. -/
structure ChunkRecord where
  pack_id : List Char
  source : List Char
  sha : ℕ
  text : List Char
deriving DecidableEq, Repr

/-- The record stream written to `temp_file`: `sha` is computed once, from
the whole `content`, and shared by every record (`H` models
`hashlib.sha256(content).hexdigest()`). -/
def chunkerRecords (H : List Char → ℕ) (pid src content : List Char) (m o : ℕ) :
    Option (List ChunkRecord) :=
  (chunkerChunks content m o).map
    (List.map (fun c => ⟨pid, src, H content, c⟩))

/-- Ceiling division on `ℕ`. -/
def cdiv (a b : ℕ) : ℕ := (a + b - 1) / b

theorem cdiv_zero_left (b : ℕ) (hb : 0 < b) : cdiv 0 b = 0 := by
  unfold cdiv
  have h : 0 + b - 1 < b := by omega
  exact Nat.div_eq_of_lt h

theorem cdiv_one (a b : ℕ) (ha : 0 < a) (hab : a ≤ b) : cdiv a b = 1 := by
  unfold cdiv
  have hb : 0 < b := lt_of_lt_of_le ha hab
  have h1 : a + b - 1 = (a - 1) + b := by omega
  rw [h1, Nat.add_div_right _ hb, Nat.div_eq_of_lt (by omega)]

theorem cdiv_step (a b : ℕ) (hb : 0 < b) (hab : b < a) :
    cdiv a b = cdiv (a - b) b + 1 := by
  unfold cdiv
  have h1 : a + b - 1 = ((a - b) + b - 1) + b := by omega
  rw [h1, Nat.add_div_right _ hb]

/-- With a positive step, enough fuel makes the loop terminate and the
number of chunks from position `s` is `⌈(len - s) / (m - o)⌉`. -/
theorem chunkerFuel_count (content : List Char) (m o : ℕ) (h : o < m) :
    ∀ fuel s : ℕ, content.length - s ≤ fuel →
      ∃ l, chunkerFuel content m o fuel (s : ℤ) = some l ∧
        l.length = cdiv (content.length - s) (m - o) := by
  intro fuel
  induction fuel with
  | zero =>
    intro s hs
    have hsl : ¬ ((s : ℤ) < (content.length : ℤ)) := by omega
    refine ⟨[], ?_, ?_⟩
    · simp [chunkerFuel, hsl]
    · have h0 : content.length - s = 0 := by omega
      rw [h0, cdiv_zero_left _ (by omega)]
      rfl
  | succ fuel ih =>
    intro s hs
    by_cases hsl : s < content.length
    · have hcast : ((s : ℤ) + ((m : ℤ) - (o : ℤ))) = ((s + (m - o) : ℕ) : ℤ) := by
        push_cast [Nat.cast_sub (le_of_lt h)]; ring
      have hfuel : content.length - (s + (m - o)) ≤ fuel := by omega
      obtain ⟨l, hl, hlen⟩ := ih (s + (m - o)) hfuel
      refine ⟨((content.drop s).take m) :: l, ?_, ?_⟩
      · have hsl2 : (s : ℤ) < (content.length : ℤ) := by omega
        simp only [chunkerFuel, if_pos hsl2, hcast, hl, Option.map_some]
        simp
      · simp only [List.length_cons, hlen]
        by_cases hle : content.length - s ≤ m - o
        · have h1 : content.length - (s + (m - o)) = 0 := by omega
          have h2 : cdiv (content.length - s) (m - o) = 1 :=
            cdiv_one (content.length - s) (m - o) (by omega) hle
          rw [h1, cdiv_zero_left (m - o) (by omega), h2]
        · have h2 : cdiv (content.length - s) (m - o) =
              cdiv (content.length - s - (m - o)) (m - o) + 1 :=
            cdiv_step (content.length - s) (m - o) (by omega) (by omega)
          have h3 : content.length - s - (m - o) =
              content.length - (s + (m - o)) := by omega
          rw [h2, h3]
    · have hsl2 : ¬ ((s : ℤ) < (content.length : ℤ)) := by omega
      refine ⟨[], ?_, ?_⟩
      · cases fuel <;> simp [chunkerFuel, hsl2]
      · have h0 : content.length - s = 0 := by omega
        rw [h0, cdiv_zero_left _ (by omega)]
        rfl

/-- C1: at `max_chars = 2`, `overlap = 2` on the two-character text `ab`
the step is `0`, `start` stays at `0 < 2`, and the loop never terminates:
no amount of fuel yields a result.  No `InvalidParameters` check exists in
the code; the spec promises one. -/
theorem chunker_invalid_overlap_loops :
    ∀ fuel : ℕ, chunkerFuel ['a', 'b'] 2 2 fuel 0 = none := by
  intro fuel
  induction fuel with
  | zero => rfl
  | succ fuel ih =>
    show (if (0 : ℤ) < ((2 : ℕ) : ℤ) then
        (chunkerFuel ['a', 'b'] 2 2 fuel (0 + ((2 : ℤ) - (2 : ℤ)))).map _
      else some []) = none
    have h0 : (0 : ℤ) + ((2 : ℤ) - (2 : ℤ)) = 0 := by ring
    rw [if_pos (by norm_num), h0, ih]
    rfl

/-- C2 counterexample: splitting `ab` with `max_chars = 1`, `overlap = 0`
yields two records whose hash field is the digest of the whole source
(here `H = List.length`, so `2`), not of their own one-character texts:
the first record's hash differs from the digest of its own text, and the
two records have equal hashes with different texts. -/
theorem chunker_hash_cex :
    chunkerRecords List.length ['p'] ['s'] ['a', 'b'] 1 0 =
      some [⟨['p'], ['s'], 2, ['a']⟩, ⟨['p'], ['s'], 2, ['b']⟩] ∧
    (2 : ℕ) ≠ List.length ['a'] ∧ (['a'] : List Char) ≠ ['b'] := by
  refine ⟨?_, by decide, by decide⟩
  rfl

/-- C2 amended: every record's hash field equals the digest of the entire
source content (hence records of the same source share it, and equal hash
fields do not imply equal chunk texts). -/
theorem chunker_hash_amended (H : List Char → ℕ) (pid src content : List Char)
    (m o : ℕ) (l : List ChunkRecord)
    (hl : chunkerRecords H pid src content m o = some l) :
    ∀ r ∈ l, r.sha = H content := by
  unfold chunkerRecords at hl
  cases hc : chunkerChunks content m o with
  | none => rw [hc] at hl; simp at hl
  | some cs =>
    rw [hc] at hl
    simp only [Option.map, Option.some.injEq] at hl
    subst hl
    intro r hr
    obtain ⟨c, _, rfl⟩ := List.mem_map.mp hr
    rfl

/-- C2 amended, witness: the first record of the counterexample input
carries the digest of the whole source `ab`. -/
theorem chunker_hash_amended_witness :
    (⟨['p'], ['s'], 2, ['a']⟩ : ChunkRecord).sha = List.length ['a', 'b'] :=
  chunker_hash_amended List.length ['p'] ['s'] ['a', 'b'] 1 0
    [⟨['p'], ['s'], 2, ['a']⟩, ⟨['p'], ['s'], 2, ['b']⟩] rfl
    ⟨['p'], ['s'], 2, ['a']⟩ (by decide)

/-- C3 counterexample: `abc` with `max_chars = 4`, `overlap = 2` produces
two chunks (`abc` and the trailing sliver `c`), while the claimed formula
`⌈(3 - 2)/(4 - 2)⌉` predicts `1`, and the text is shorter than
`max_chars` yet does not yield exactly one chunk. -/
theorem chunker_count_cex :
    chunkerChunks ['a', 'b', 'c'] 4 2 = some [['a', 'b', 'c'], ['c']] ∧
    cdiv (3 - 2) (4 - 2) = 1 ∧ (2 : ℕ) ≠ 1 := by
  refine ⟨?_, by decide, by decide⟩
  rfl

/-- C3 amended: for `overlap < max_chars` and non-empty text, the loop
terminates and the number of chunks is `⌈len(text) / (max_chars - overlap)⌉`;
a text of length at most `max_chars - overlap` yields exactly one chunk. -/
theorem chunker_count_amended (content : List Char) (m o : ℕ)
    (h : o < m) (hne : content ≠ []) :
    ∃ l, chunkerChunks content m o = some l ∧
      l.length = cdiv content.length (m - o) ∧
      (content.length ≤ m - o → l.length = 1) := by
  obtain ⟨l, hl, hlen⟩ := chunkerFuel_count content m o h (content.length + 1) 0
    (by omega)
  refine ⟨l, hl, ?_, ?_⟩
  · simpa using hlen
  · intro hle
    have hpos : 0 < content.length := List.length_pos.mpr hne
    rw [hlen, Nat.sub_zero, cdiv_one _ _ hpos hle]

/-- C3 amended, witness: `abc` with `max_chars = 3`, `overlap = 1` gives
`⌈3/2⌉ = 2` chunks. -/
theorem chunker_count_amended_witness :
    ∃ l, chunkerChunks ['a', 'b', 'c'] 3 1 = some l ∧
      l.length = cdiv (List.length ['a', 'b', 'c']) (3 - 1) ∧
      (List.length ['a', 'b', 'c'] ≤ 3 - 1 → l.length = 1) :=
  chunker_count_amended ['a', 'b', 'c'] 3 1 (by decide) (by decide)

/-! ### Prompt annealer (`src/tools/prompt_annealer.py`)

Acceptance in `anneal`:

    delta = candidate.score - best_candidate.score
    accept = delta < 0 or math.exp(-delta / temp) > random.random()

`random.random()` (uniform in `[0,1)`) is modelled as the input `u`;
scores are reals. -/

/-- The acceptance condition of the annealing loop, exactly as written. -/
def acceptRule (delta temp u : ℝ) : Prop :=
  delta < 0 ∨ Real.exp (-delta / temp) > u

/-- C5: a candidate is accepted iff `Δ < 0` or the uniform draw `u` is less
than `exp(-Δ/temp)`; in particular for `Δ = 0` every draw `u ∈ [0,1)`
accepts. -/
theorem anneal_accept_rule (delta temp u : ℝ) :
    (acceptRule delta temp u ↔ (delta < 0 ∨ u < Real.exp (-delta / temp))) ∧
    (delta = 0 → 0 ≤ u → u < 1 → acceptRule delta temp u) := by
  constructor
  · unfold acceptRule
    rw [gt_iff_lt]
  · intro h0 _ h1
    right
    rw [h0, neg_zero, zero_div, Real.exp_zero]
    exact h1

/-- C5 witness: at `Δ = 0`, `temp = 1`, `u = 1/2` the candidate is
accepted. -/
theorem anneal_accept_rule_witness : acceptRule 0 1 (1 / 2) :=
  (anneal_accept_rule 0 1 (1 / 2)).2 rfl (by norm_num) (by norm_num)

/-- The four edit kinds drawn by `random.choice` in `mutate_prompt`. -/
inductive MAction where
  | delete
  | swap
  | shuffle
  | trim
deriving DecidableEq, Repr

/-- Helper for `pySplit`: walks the text accumulating the current token
(reversed); whitespace ends a token, empty tokens are dropped. -/
def pySplitAux : List Char → List Char → List (List Char)
  | [], cur => if cur = [] then [] else [cur.reverse]
  | c :: rest, cur =>
    if c.isWhitespace then
      if cur = [] then pySplitAux rest []
      else cur.reverse :: pySplitAux rest []
    else pySplitAux rest (c :: cur)

/-- Python `str.split()` with no argument: split on whitespace runs,
dropping empty pieces. -/
def pySplit (s : List Char) : List (List Char) :=
  pySplitAux s []

/-- `mutate_prompt`, with the random draws as explicit inputs:
`action` is the `random.choice`, `r1`/`r2` the index draws (reduced modulo
the list length, which is positive past the empty-input early return),
`k` the `random.randint(1, 3)` draw (as `k % 3 + 1`), and `σ` the index
permutation chosen by `random.shuffle`. -/
def mutate_prompt (lines : List (List Char)) (action : MAction) (r1 r2 k : ℕ)
    (σ : ℕ → ℕ) : List (List Char) :=
  if lines = [] then lines
  else
    match action with
    | .delete =>
      if 1 < lines.length then lines.eraseIdx (r1 % lines.length) else lines
    | .swap =>
      if 1 < lines.length then
        let a := r1 % lines.length
        let b := r2 % lines.length
        (lines.set a (lines.getD b [])).set b (lines.getD a [])
      else lines
    | .shuffle =>
      (List.range lines.length).map (fun i => lines.getD (σ i % lines.length) [])
    | .trim =>
      let idx := r1 % lines.length
      let tokens := pySplit (lines.getD idx [])
      if 4 < tokens.length then
        let tk := max 1 (tokens.length - (k % 3 + 1))
        lines.set idx (List.intercalate [' '] (tokens.take tk))
      else lines

/-- C7: when the chosen edit's precondition fails (`delete`/`swap` on fewer
than two lines, `trim` on a line of at most four whitespace-delimited
tokens), `mutate_prompt` returns its input unchanged, as a normal result. -/
theorem mutate_prompt_noop (lines : List (List Char)) (action : MAction)
    (r1 r2 k : ℕ) (σ : ℕ → ℕ)
    (h : ((action = .delete ∨ action = .swap) ∧ lines.length < 2) ∨
      (action = .trim ∧
        (pySplit (lines.getD (r1 % lines.length) [])).length ≤ 4)) :
    mutate_prompt lines action r1 r2 k σ = lines := by
  unfold mutate_prompt
  by_cases he : lines = []
  · rw [if_pos he]
  · rw [if_neg he]
    rcases h with ⟨hact, hlen⟩ | ⟨hact, htok⟩
    · rcases hact with rfl | rfl
      · simp only
        rw [if_neg (by omega)]
      · simp only
        rw [if_neg (by omega)]
    · subst hact
      simp only
      rw [if_neg (by omega)]

/-- C7 witness: `trim` on a two-token line is a no-op. -/
theorem mutate_prompt_noop_witness :
    mutate_prompt [['a', 'b', ' ', 'c', 'd']] MAction.trim 0 0 0 (fun i => i) =
      [['a', 'b', ' ', 'c', 'd']] :=
  mutate_prompt_noop [['a', 'b', ' ', 'c', 'd']] MAction.trim 0 0 0 (fun i => i)
    (Or.inr ⟨rfl, by decide⟩)

/-- C10: `mutate_prompt` on the empty list returns the empty list, and no
edit kind ever grows the line list; all index draws are taken modulo a
positive length, so every access is in range (the embedding is total). -/
theorem mutate_prompt_safe (lines : List (List Char)) (action : MAction)
    (r1 r2 k : ℕ) (σ : ℕ → ℕ) :
    mutate_prompt [] action r1 r2 k σ = [] ∧
    (mutate_prompt lines action r1 r2 k σ).length ≤ lines.length := by
  constructor
  · rfl
  · unfold mutate_prompt
    by_cases he : lines = []
    · rw [if_pos he]
    · rw [if_neg he]
      cases action with
      | delete =>
        simp only
        by_cases h1 : 1 < lines.length
        · rw [if_pos h1, List.length_eraseIdx]
          split <;> omega
        · rw [if_neg h1]
      | swap =>
        simp only
        by_cases h1 : 1 < lines.length
        · rw [if_pos h1]
          simp
        · rw [if_neg h1]
      | shuffle =>
        simp
      | trim =>
        simp only
        by_cases h4 : 4 < (pySplit (lines.getD (r1 % lines.length) [])).length
        · rw [if_pos h4]
          simp
        · rw [if_neg h4]

/-! ### Condenser (`src/speccy-kit/tools/condenser.py`)

`shingles` normalizes (lowercase, collapse whitespace runs to one space,
strip) and takes the set of all 8-character substrings; `jaccard` is set
similarity; `simkey` is a 64-bit prefix of the SHA-256 of the normalized
text, modelled as an abstract `K : List Char → ℕ` applied to the
normalized text; the exact-duplicate hash is an abstract
`H : List Char → ℕ` applied to the stripped text.  `condense_index` keeps
the first record of each exact hash whose bucket holds no kept record with
Jaccard similarity `≥ τ`, archiving the rest; the processing of one record
is `condenseStep` (returning the updated state and the record's fate) and
the loop over the stream is `condenseGo`. -/

/-- One maximal whitespace run becomes a single space
   (the flag says whether we are inside a run). -/
def collapseWS : Bool → List Char → List Char
  | _, [] => []
  | prevWS, c :: rest =>
    if c.isWhitespace then
      if prevWS then collapseWS true rest
      else ' ' :: collapseWS true rest
    else c :: collapseWS false rest

/-- Python `str.strip()`: drop leading and trailing whitespace. -/
def pyStrip (l : List Char) : List Char :=
  ((l.dropWhile Char.isWhitespace).reverse.dropWhile Char.isWhitespace).reverse

/-- The normalization inside `shingles` and `simkey`:
`re.sub(r'\x5cs+', ' ', text.lower()).strip()`. -/
def normText (l : List Char) : List Char :=
  pyStrip (collapseWS false (l.map Char.toLower))

/-- `shingles(text, k=8)`: all 8-character windows of the normalized text
(empty normalized text gives the empty set; so does any normalized text
shorter than 8 characters, via the empty `range`). -/
def shingles (text : List Char) : Finset (List Char) :=
  if normText text = [] then ∅
  else ((List.range ((normText text).length + 1 - 8)).map
    (fun i => ((normText text).drop i).take 8)).toFinset

/-- `jaccard(a, b)` with both the emptiness and the zero-union guards of
the source. -/
def jaccard (a b : Finset (List Char)) : ℚ :=
  if a = ∅ ∨ b = ∅ then 0
  else if (a ∪ b).card = 0 then 0
  else ((a ∩ b).card : ℚ) / ((a ∪ b).card : ℚ)

/-- One parsed JSONL record of an index; `tag` stands for the other JSON
fields carried along unchanged. -/
structure CRec where
  text : List Char
  tag : ℕ
deriving DecidableEq, Repr

/-- The fate of one record in `condense_index`. -/
inductive CDecision where
  | kept
  | exactDup
  | nearDup
deriving DecidableEq, Repr

/-- The loop state of `condense_index`: `keep`, `seen_hash`, `buckets`
(a map from simkey to the kept records' `(index, shingles)` pairs). -/
structure CState where
  keep : List CRec
  seen : Finset ℕ
  buckets : ℕ → List (ℕ × Finset (List Char))

def initCState : CState := ⟨[], ∅, fun _ => []⟩

/-- Processing of a single record in the loop body of `condense_index`:
skip blank text, archive exact hash duplicates, archive near-duplicates
found in the record's bucket, keep everything else (recording hash,
bucket entry and position). -/
def condenseStep (H K : List Char → ℕ) (τ : ℚ) (s : CState) (r : CRec) :
    CState × Option CDecision :=
  let txt := pyStrip r.text
  if txt = [] then (s, none)
  else
    let ex := H txt
    if ex ∈ s.seen then (s, some .exactDup)
    else
      let key := K (normText txt)
      let sh := shingles txt
      let bucket := s.buckets key
      if bucket.any (fun p => decide (τ ≤ jaccard sh p.2)) then
        (s, some .nearDup)
      else
        (⟨s.keep ++ [r], insert ex s.seen,
          Function.update s.buckets key (bucket ++ [(s.keep.length, sh)])⟩,
          some .kept)

/-- The full loop: thread the state through the stream, recording each
non-skipped record's fate in order. -/
def condenseGo (H K : List Char → ℕ) (τ : ℚ) :
    CState → List CRec → CState × List (CRec × CDecision)
  | s, [] => (s, [])
  | s, r :: rs =>
    match condenseStep H K τ s r with
    | (s1, none) => condenseGo H K τ s1 rs
    | (s1, some d) =>
      let res := condenseGo H K τ s1 rs
      (res.1, (r, d) :: res.2)

def condenseTrace (H K : List Char → ℕ) (τ : ℚ) (rs : List CRec) :
    List (CRec × CDecision) :=
  (condenseGo H K τ initCState rs).2

/-- The `keep` list written to `index.compact.jsonl`. -/
def condenseKept (H K : List Char → ℕ) (τ : ℚ) (rs : List CRec) : List CRec :=
  (condenseGo H K τ initCState rs).1.keep

/-- The `archived` list appended to `index.archive.jsonl`: every processed
record whose fate is not `kept`, in stream order. -/
def condenseArchived (H K : List Char → ℕ) (τ : ℚ) (rs : List CRec) :
    List CRec :=
  ((condenseTrace H K τ rs).filter (fun p => p.2 ≠ CDecision.kept)).map Prod.fst

/-- How many records were archived by the near-duplicate test. -/
def nearArchivedCount (H K : List Char → ℕ) (τ : ℚ) (rs : List CRec) : ℕ :=
  ((condenseTrace H K τ rs).filter (fun p => p.2 = CDecision.nearDup)).length

theorem condenseStep_skip (H K : List Char → ℕ) (τ : ℚ) (s : CState)
    (r : CRec) (h : pyStrip r.text = []) :
    condenseStep H K τ s r = (s, none) := by
  simp [condenseStep, h]

theorem condenseStep_exact (H K : List Char → ℕ) (τ : ℚ) (s : CState)
    (r : CRec) (h1 : pyStrip r.text ≠ []) (h2 : H (pyStrip r.text) ∈ s.seen) :
    condenseStep H K τ s r = (s, some .exactDup) := by
  simp [condenseStep, h1, h2]

theorem condenseStep_near (H K : List Char → ℕ) (τ : ℚ) (s : CState)
    (r : CRec) (h1 : pyStrip r.text ≠ []) (h2 : H (pyStrip r.text) ∉ s.seen)
    (h3 : (s.buckets (K (normText (pyStrip r.text)))).any
      (fun p => decide (τ ≤ jaccard (shingles (pyStrip r.text)) p.2)) = true) :
    condenseStep H K τ s r = (s, some .nearDup) := by
  simp [condenseStep, h1, h2, h3]

theorem condenseStep_keep (H K : List Char → ℕ) (τ : ℚ) (s : CState)
    (r : CRec) (h1 : pyStrip r.text ≠ []) (h2 : H (pyStrip r.text) ∉ s.seen)
    (h3 : (s.buckets (K (normText (pyStrip r.text)))).any
      (fun p => decide (τ ≤ jaccard (shingles (pyStrip r.text)) p.2)) = false) :
    condenseStep H K τ s r =
      (⟨s.keep ++ [r], insert (H (pyStrip r.text)) s.seen,
        Function.update s.buckets (K (normText (pyStrip r.text)))
          (s.buckets (K (normText (pyStrip r.text))) ++
            [(s.keep.length, shingles (pyStrip r.text))])⟩, some .kept) := by
  simp [condenseStep, h1, h2, h3]

theorem condenseGo_cons_none (H K : List Char → ℕ) (τ : ℚ) (s s1 : CState)
    (r : CRec) (rs : List CRec) (h : condenseStep H K τ s r = (s1, none)) :
    condenseGo H K τ s (r :: rs) = condenseGo H K τ s1 rs := by
  simp [condenseGo, h]

theorem condenseGo_cons_some (H K : List Char → ℕ) (τ : ℚ) (s s1 : CState)
    (r : CRec) (rs : List CRec) (d : CDecision)
    (h : condenseStep H K τ s r = (s1, some d)) :
    condenseGo H K τ s (r :: rs) =
      ((condenseGo H K τ s1 rs).1, (r, d) :: (condenseGo H K τ s1 rs).2) := by
  simp [condenseGo, h]

theorem shingles_empty_of_short (x : List Char)
    (h : (normText x).length < 8) : shingles x = ∅ := by
  unfold shingles
  split
  · rfl
  · have h0 : (normText x).length + 1 - 8 = 0 := by omega
    rw [h0]
    rfl

theorem jaccard_empty_left (b : Finset (List Char)) : jaccard ∅ b = 0 := by
  simp [jaccard]

theorem no_near_of_shingles_empty (H K : List Char → ℕ) (τ : ℚ)
    (hτ : 0 < τ) (r : CRec) (hsh : shingles (pyStrip r.text) = ∅) :
    ∀ (rs : List CRec) (s : CState),
      (r, CDecision.nearDup) ∉ (condenseGo H K τ s rs).2 := by
  intro rs
  induction rs with
  | nil => intro s; simp [condenseGo]
  | cons r' rs ih =>
    intro s
    by_cases ht : pyStrip r'.text = []
    · rw [condenseGo_cons_none H K τ s s r' rs (condenseStep_skip H K τ s r' ht)]
      exact ih s
    · by_cases hex : H (pyStrip r'.text) ∈ s.seen
      · rw [condenseGo_cons_some H K τ s s r' rs CDecision.exactDup
          (condenseStep_exact H K τ s r' ht hex)]
        intro hmem
        rcases List.mem_cons.mp hmem with heq | hmem2
        · simp at heq
        · exact ih s hmem2
      · by_cases hnear : (s.buckets (K (normText (pyStrip r'.text)))).any
            (fun p => decide (τ ≤ jaccard (shingles (pyStrip r'.text)) p.2)) = true
        · rw [condenseGo_cons_some H K τ s s r' rs CDecision.nearDup
            (condenseStep_near H K τ s r' ht hex hnear)]
          intro hmem
          rcases List.mem_cons.mp hmem with heq | hmem2
          · have hr : r' = r := (congrArg Prod.fst heq).symm
            subst hr
            obtain ⟨p, _, hdp⟩ := List.any_eq_true.mp hnear
            rw [hsh, jaccard_empty_left] at hdp
            exact absurd (of_decide_eq_true hdp) (not_le.mpr hτ)
          · exact ih s hmem2
        · rw [condenseGo_cons_some H K τ s _ r' rs CDecision.kept
            (condenseStep_keep H K τ s r' ht hex (by simpa using hnear))]
          intro hmem
          rcases List.mem_cons.mp hmem with heq | hmem2
          · simp at heq
          · exact ih _ hmem2

/-- C9: a record whose normalized (whitespace-collapsed, lower-cased,
stripped) text is non-empty but shorter than 8 characters has an empty
shingle set, Jaccard similarity `0` against every other set, and is never
archived as a near-duplicate under any positive threshold: only the exact
digest check can archive it. -/
theorem condense_short_text_never_near (H K : List Char → ℕ) (τ : ℚ)
    (rs : List CRec) (r : CRec) (hτ : 0 < τ)
    (_h1 : normText (pyStrip r.text) ≠ [])
    (h2 : (normText (pyStrip r.text)).length < 8) :
    shingles (pyStrip r.text) = ∅ ∧
    (∀ b, jaccard (shingles (pyStrip r.text)) b = 0) ∧
    (r, CDecision.nearDup) ∉ condenseTrace H K τ rs := by
  have hsh : shingles (pyStrip r.text) = ∅ := shingles_empty_of_short _ h2
  refine ⟨hsh, ?_, ?_⟩
  · intro b
    rw [hsh, jaccard_empty_left]
  · exact no_near_of_shingles_empty H K τ hτ r hsh rs initCState

/-- C9 witness: the record `abc` (normalized length 3) in a singleton
stream at threshold `1/2` is never archived as a near-duplicate. -/
theorem condense_short_text_never_near_witness :
    (⟨['a', 'b', 'c'], 0⟩, CDecision.nearDup) ∉
      condenseTrace List.length List.length (1 / 2) [⟨['a', 'b', 'c'], 0⟩] :=
  (condense_short_text_never_near List.length List.length (1 / 2)
    [⟨['a', 'b', 'c'], 0⟩] ⟨['a', 'b', 'c'], 0⟩
    (by norm_num) (by decide) (by decide)).2.2

theorem condenseGo_trace_fst (H K : List Char → ℕ) (τ : ℚ) :
    ∀ (rs : List CRec) (s : CState),
      ((condenseGo H K τ s rs).2).map Prod.fst =
        rs.filter (fun r => pyStrip r.text ≠ []) := by
  intro rs
  induction rs with
  | nil => intro s; simp [condenseGo]
  | cons r rs ih =>
    intro s
    by_cases ht : pyStrip r.text = []
    · rw [condenseGo_cons_none H K τ s s r rs (condenseStep_skip H K τ s r ht)]
      simp [ih s, List.filter_cons, ht]
    · by_cases hex : H (pyStrip r.text) ∈ s.seen
      · rw [condenseGo_cons_some H K τ s s r rs CDecision.exactDup
          (condenseStep_exact H K τ s r ht hex)]
        simp [ih s, List.filter_cons, ht]
      · by_cases hnear : (s.buckets (K (normText (pyStrip r.text)))).any
            (fun p => decide (τ ≤ jaccard (shingles (pyStrip r.text)) p.2)) = true
        · rw [condenseGo_cons_some H K τ s s r rs CDecision.nearDup
            (condenseStep_near H K τ s r ht hex hnear)]
          simp [ih s, List.filter_cons, ht]
        · rw [condenseGo_cons_some H K τ s _ r rs CDecision.kept
            (condenseStep_keep H K τ s r ht hex (by simpa using hnear))]
          simp [ih _, List.filter_cons, ht]

theorem condenseGo_keep_eq (H K : List Char → ℕ) (τ : ℚ) :
    ∀ (rs : List CRec) (s : CState),
      (condenseGo H K τ s rs).1.keep =
        s.keep ++ ((condenseGo H K τ s rs).2.filter
          (fun p => p.2 = CDecision.kept)).map Prod.fst := by
  intro rs
  induction rs with
  | nil => intro s; simp [condenseGo]
  | cons r rs ih =>
    intro s
    by_cases ht : pyStrip r.text = []
    · rw [condenseGo_cons_none H K τ s s r rs (condenseStep_skip H K τ s r ht)]
      exact ih s
    · by_cases hex : H (pyStrip r.text) ∈ s.seen
      · rw [condenseGo_cons_some H K τ s s r rs CDecision.exactDup
          (condenseStep_exact H K τ s r ht hex)]
        simpa [List.filter_cons] using ih s
      · by_cases hnear : (s.buckets (K (normText (pyStrip r.text)))).any
            (fun p => decide (τ ≤ jaccard (shingles (pyStrip r.text)) p.2)) = true
        · rw [condenseGo_cons_some H K τ s s r rs CDecision.nearDup
            (condenseStep_near H K τ s r ht hex hnear)]
          simpa [List.filter_cons] using ih s
        · rw [condenseGo_cons_some H K τ s _ r rs CDecision.kept
            (condenseStep_keep H K τ s r ht hex (by simpa using hnear))]
          simp only [List.filter_cons]
          rw [ih]
          simp

theorem condenseGo_keep_pairwise (H K : List Char → ℕ) (τ : ℚ) :
    ∀ (rs : List CRec) (s : CState),
      (∀ r ∈ s.keep, H (pyStrip r.text) ∈ s.seen) →
      s.keep.Pairwise (fun a b => H (pyStrip a.text) ≠ H (pyStrip b.text)) →
      (∀ r ∈ (condenseGo H K τ s rs).1.keep,
        H (pyStrip r.text) ∈ (condenseGo H K τ s rs).1.seen) ∧
      (condenseGo H K τ s rs).1.keep.Pairwise
        (fun a b => H (pyStrip a.text) ≠ H (pyStrip b.text)) := by
  intro rs
  induction rs with
  | nil => intro s hinv hpw; simpa [condenseGo] using ⟨hinv, hpw⟩
  | cons r rs ih =>
    intro s hinv hpw
    by_cases ht : pyStrip r.text = []
    · rw [condenseGo_cons_none H K τ s s r rs (condenseStep_skip H K τ s r ht)]
      exact ih s hinv hpw
    · by_cases hex : H (pyStrip r.text) ∈ s.seen
      · rw [condenseGo_cons_some H K τ s s r rs CDecision.exactDup
          (condenseStep_exact H K τ s r ht hex)]
        exact ih s hinv hpw
      · by_cases hnear : (s.buckets (K (normText (pyStrip r.text)))).any
            (fun p => decide (τ ≤ jaccard (shingles (pyStrip r.text)) p.2)) = true
        · rw [condenseGo_cons_some H K τ s s r rs CDecision.nearDup
            (condenseStep_near H K τ s r ht hex hnear)]
          exact ih s hinv hpw
        · rw [condenseGo_cons_some H K τ s _ r rs CDecision.kept
            (condenseStep_keep H K τ s r ht hex (by simpa using hnear))]
          apply ih
          · intro r' hr'
            rcases List.mem_append.mp hr' with hold | hnew
            · exact Finset.mem_insert_of_mem (hinv r' hold)
            · rw [List.mem_singleton.mp hnew]
              exact Finset.mem_insert_self _ _
          · rw [List.pairwise_append]
            refine ⟨hpw, List.pairwise_singleton _ _, ?_⟩
            intro a ha b hb
            rw [List.mem_singleton.mp hb]
            intro hcontra
            exact hex (hcontra ▸ hinv a ha)

/-- C8: the kept stream contains no two records with equal exact digest of
their stripped texts, and the kept and archived streams together are a
permutation of the non-blank input records: every non-empty record lands
in exactly one of them. -/
theorem condense_partition (H K : List Char → ℕ) (τ : ℚ) (rs : List CRec) :
    (condenseKept H K τ rs).Pairwise
      (fun a b => H (pyStrip a.text) ≠ H (pyStrip b.text)) ∧
    (condenseKept H K τ rs ++ condenseArchived H K τ rs).Perm
      (rs.filter (fun r => pyStrip r.text ≠ [])) := by
  constructor
  · exact (condenseGo_keep_pairwise H K τ rs initCState
      (by intro r hr; simp [initCState] at hr) (by simp [initCState])).2
  · have h1 : condenseKept H K τ rs =
        ((condenseTrace H K τ rs).filter
          (fun p => p.2 = CDecision.kept)).map Prod.fst := by
      have := condenseGo_keep_eq H K τ rs initCState
      simpa [condenseKept, condenseTrace, initCState] using this
    have h2 : condenseArchived H K τ rs =
        ((condenseTrace H K τ rs).filter
          (fun p => !(decide (p.2 = CDecision.kept)))).map Prod.fst := by
      unfold condenseArchived
      simp only [ne_eq, decide_not]
    rw [h1, h2, ← List.map_append]
    have hperm := (List.filter_append_perm
      (fun p : CRec × CDecision => decide (p.2 = CDecision.kept))
      (condenseTrace H K τ rs)).map Prod.fst
    refine hperm.trans ?_
    have h3 : (condenseTrace H K τ rs).map Prod.fst =
        rs.filter (fun r => pyStrip r.text ≠ []) :=
      condenseGo_trace_fst H K τ rs initCState
    rw [h3]

theorem condenseGo_all_fresh (H K : List Char → ℕ) (τ : ℚ) :
    ∀ (rs : List CRec) (s : CState),
      (∀ r ∈ rs, pyStrip r.text ≠ []) →
      (∀ r ∈ rs, H (pyStrip r.text) ∉ s.seen) →
      (∀ r ∈ rs, ∀ p ∈ s.buckets (K (normText (pyStrip r.text))),
        jaccard (shingles (pyStrip r.text)) p.2 < τ) →
      rs.Pairwise (fun a b => H (pyStrip a.text) ≠ H (pyStrip b.text)) →
      rs.Pairwise (fun a b =>
        K (normText (pyStrip a.text)) = K (normText (pyStrip b.text)) →
        jaccard (shingles (pyStrip b.text)) (shingles (pyStrip a.text)) < τ) →
      (condenseGo H K τ s rs).1.keep = s.keep ++ rs ∧
      (condenseGo H K τ s rs).2 = rs.map (fun r => (r, CDecision.kept)) := by
  intro rs
  induction rs with
  | nil => intro s _ _ _ _ _; simp [condenseGo]
  | cons r rs ih =>
    intro s hne hfresh hbucket hpwex hpwj
    have ht : pyStrip r.text ≠ [] := hne r (List.mem_cons_self r rs)
    have hex : H (pyStrip r.text) ∉ s.seen := hfresh r (List.mem_cons_self r rs)
    have hnear : (s.buckets (K (normText (pyStrip r.text)))).any
        (fun p => decide (τ ≤ jaccard (shingles (pyStrip r.text)) p.2)) = false := by
      rw [List.any_eq_false]
      intro p hp
      simp only [decide_eq_true_eq]
      exact not_le.mpr (hbucket r (List.mem_cons_self r rs) p hp)
    rw [condenseGo_cons_some H K τ s _ r rs CDecision.kept
      (condenseStep_keep H K τ s r ht hex hnear)]
    set s1 : CState :=
      ⟨s.keep ++ [r], insert (H (pyStrip r.text)) s.seen,
        Function.update s.buckets (K (normText (pyStrip r.text)))
          (s.buckets (K (normText (pyStrip r.text))) ++
            [(s.keep.length, shingles (pyStrip r.text))])⟩ with hs1
    have hfresh2 : ∀ r' ∈ rs, H (pyStrip r'.text) ∉ s1.seen := by
      intro r' hr'
      rw [hs1]
      simp only [Finset.mem_insert]
      push_neg
      constructor
      · exact fun hcontra =>
          (List.rel_of_pairwise_cons hpwex hr') hcontra.symm
      · exact hfresh r' (List.mem_cons_of_mem r hr')
    have hbucket2 : ∀ r' ∈ rs, ∀ p ∈ s1.buckets (K (normText (pyStrip r'.text))),
        jaccard (shingles (pyStrip r'.text)) p.2 < τ := by
      intro r' hr' p hp
      rw [hs1] at hp
      dsimp only at hp
      by_cases hkey : K (normText (pyStrip r'.text)) =
          K (normText (pyStrip r.text))
      · rw [hkey, Function.update_same] at hp
        rcases List.mem_append.mp hp with hold | hnew
        · have hb := hbucket r' (List.mem_cons_of_mem r hr')
          rw [hkey] at hb
          exact hb p hold
        · have hp2 : p.2 = shingles (pyStrip r.text) := by
            rw [List.mem_singleton.mp hnew]
          rw [hp2]
          exact List.rel_of_pairwise_cons hpwj hr' hkey.symm
      · rw [Function.update_noteq hkey] at hp
        exact hbucket r' (List.mem_cons_of_mem r hr') p hp
    obtain ⟨hk, htr⟩ := ih s1
      (fun r' hr' => hne r' (List.mem_cons_of_mem r hr'))
      hfresh2 hbucket2 hpwex.of_cons hpwj.of_cons
    constructor
    · rw [hk, hs1]
      simp
    · rw [htr]
      simp

/-- C6: on a stream with no blank texts, no two records with equal exact
digest of stripped text, and no same-bucket pair whose Jaccard similarity
reaches the threshold, condensing is the identity: `kept` is the input in
order and `archived` is empty. -/
theorem condense_idempotent (H K : List Char → ℕ) (τ : ℚ) (rs : List CRec)
    (h1 : ∀ r ∈ rs, pyStrip r.text ≠ [])
    (h2 : rs.Pairwise (fun a b => H (pyStrip a.text) ≠ H (pyStrip b.text)))
    (h3 : rs.Pairwise (fun a b =>
      K (normText (pyStrip a.text)) = K (normText (pyStrip b.text)) →
      jaccard (shingles (pyStrip b.text)) (shingles (pyStrip a.text)) < τ)) :
    condenseKept H K τ rs = rs ∧ condenseArchived H K τ rs = [] := by
  obtain ⟨hk, htr⟩ := condenseGo_all_fresh H K τ rs initCState h1
    (by intro r _; simp [initCState]) (by intro r _ p hp; simp [initCState] at hp)
    h2 h3
  constructor
  · simpa [condenseKept, initCState] using hk
  · unfold condenseArchived condenseTrace
    rw [htr]
    simp

/-- C6 witness: a single non-blank record passes through unchanged. -/
theorem condense_idempotent_witness :
    condenseKept List.length List.length (88 / 100) [⟨['h', 'i'], 0⟩] =
      [⟨['h', 'i'], 0⟩] ∧
    condenseArchived List.length List.length (88 / 100) [⟨['h', 'i'], 0⟩] = [] :=
  condense_idempotent List.length List.length (88 / 100) [⟨['h', 'i'], 0⟩]
    (by decide) (by simp) (by simp)

theorem shingles_congr (a b : List Char) (h : normText a = normText b) :
    shingles a = shingles b := by
  unfold shingles
  rw [h]

theorem jaccard_self (S : Finset (List Char)) :
    jaccard S S = if S = ∅ then 0 else 1 := by
  by_cases hS : S = ∅
  · simp [jaccard, hS]
  · have hcard : S.card ≠ 0 :=
      Finset.card_ne_zero.mpr (Finset.nonempty_iff_ne_empty.mpr hS)
    simp only [jaccard, hS, or_self, if_false, Finset.inter_self,
      Finset.union_self, if_neg hcard]
    exact div_self (by exact_mod_cast hcard)

/-- The state after the keep branch of `condense_index` for record `r`. -/
def keepState (H K : List Char → ℕ) (s : CState) (r : CRec) : CState :=
  ⟨s.keep ++ [r], insert (H (pyStrip r.text)) s.seen,
    Function.update s.buckets (K (normText (pyStrip r.text)))
      (s.buckets (K (normText (pyStrip r.text))) ++
        [(s.keep.length, shingles (pyStrip r.text))])⟩

theorem condenseStep_keep2 (H K : List Char → ℕ) (τ : ℚ) (s : CState)
    (r : CRec) (h1 : pyStrip r.text ≠ []) (h2 : H (pyStrip r.text) ∉ s.seen)
    (h3 : (s.buckets (K (normText (pyStrip r.text)))).any
      (fun p => decide (τ ≤ jaccard (shingles (pyStrip r.text)) p.2)) = false) :
    condenseStep H K τ s r = (keepState H K s r, some .kept) :=
  condenseStep_keep H K τ s r h1 h2 h3

theorem keepState_buckets_at_key (H K : List Char → ℕ) (s : CState) (r : CRec) :
    (keepState H K s r).buckets (K (normText (pyStrip r.text))) ≠ [] := by
  simp [keepState, Function.update_same]

theorem keepState_buckets_mono (H K : List Char → ℕ) (s : CState) (r : CRec)
    (k : ℕ) (hk : s.buckets k ≠ []) : (keepState H K s r).buckets k ≠ [] := by
  unfold keepState
  dsimp only
  by_cases h : k = K (normText (pyStrip r.text))
  · subst h
    simp [Function.update_same]
  · rw [Function.update_noteq h]
    exact hk

theorem keepState_buckets_of_ne (H K : List Char → ℕ) (s : CState) (r : CRec)
    (k : ℕ) (h : k ≠ K (normText (pyStrip r.text))) :
    (keepState H K s r).buckets k = s.buckets k :=
  Function.update_noteq h _ _

/-- Simulation invariant tying the state of the run at the lower threshold
(`sA`) to the state of the run at the higher threshold (`sB`): `sA` has
seen at most the hashes `sB` has, the two bucket maps are empty at exactly
the same keys, every bucket entry's shingle set comes from some input text
with the matching simkey, and every hash `sB` has seen left a bucket entry
behind. -/
structure SimInv (H K : List Char → ℕ) (T : List (List Char))
    (sA sB : CState) : Prop where
  seenSub : sA.seen ⊆ sB.seen
  bEquiv : ∀ k, sA.buckets k = [] ↔ sB.buckets k = []
  homA : ∀ k, ∀ p ∈ sA.buckets k, ∃ x ∈ T, K (normText x) = k ∧ p.2 = shingles x
  homB : ∀ k, ∀ p ∈ sB.buckets k, ∃ x ∈ T, K (normText x) = k ∧ p.2 = shingles x
  link : ∀ h ∈ sB.seen, ∃ x ∈ T, H x = h ∧ sB.buckets (K (normText x)) ≠ []

theorem keepState_hom (H K : List Char → ℕ) (T : List (List Char)) (s : CState)
    (r : CRec) (htT : pyStrip r.text ∈ T)
    (hhom : ∀ k, ∀ p ∈ s.buckets k, ∃ x ∈ T, K (normText x) = k ∧ p.2 = shingles x) :
    ∀ k, ∀ p ∈ (keepState H K s r).buckets k,
      ∃ x ∈ T, K (normText x) = k ∧ p.2 = shingles x := by
  intro k p hp
  unfold keepState at hp
  dsimp only at hp
  by_cases h : k = K (normText (pyStrip r.text))
  · subst h
    rw [Function.update_same] at hp
    rcases List.mem_append.mp hp with hold | hnew
    · exact hhom _ p hold
    · refine ⟨pyStrip r.text, htT, rfl, ?_⟩
      rw [List.mem_singleton.mp hnew]
  · rw [Function.update_noteq h] at hp
    exact hhom _ p hp

theorem simInv_keepA (H K : List Char → ℕ) (T : List (List Char))
    (sA sB : CState) (inv : SimInv H K T sA sB) (r : CRec)
    (htT : pyStrip r.text ∈ T) (hexB : H (pyStrip r.text) ∈ sB.seen)
    (hbB : sB.buckets (K (normText (pyStrip r.text))) ≠ []) :
    SimInv H K T (keepState H K sA r) sB := by
  refine ⟨?_, ?_, ?_, inv.homB, inv.link⟩
  · exact Finset.insert_subset_iff.mpr ⟨hexB, inv.seenSub⟩
  · intro k
    by_cases h : k = K (normText (pyStrip r.text))
    · subst h
      constructor
      · intro hc
        exact absurd hc (keepState_buckets_at_key H K sA r)
      · intro hc
        exact absurd hc hbB
    · rw [keepState_buckets_of_ne H K sA r k h]
      exact inv.bEquiv k
  · exact keepState_hom H K T sA r htT inv.homA

theorem simInv_keepB (H K : List Char → ℕ) (T : List (List Char))
    (sA sB : CState) (inv : SimInv H K T sA sB) (r : CRec)
    (htT : pyStrip r.text ∈ T)
    (hbA : sA.buckets (K (normText (pyStrip r.text))) ≠ []) :
    SimInv H K T sA (keepState H K sB r) := by
  refine ⟨?_, ?_, inv.homA, ?_, ?_⟩
  · exact inv.seenSub.trans (Finset.subset_insert _ _)
  · intro k
    by_cases h : k = K (normText (pyStrip r.text))
    · subst h
      constructor
      · intro hc
        exact absurd hc hbA
      · intro hc
        exact absurd hc (keepState_buckets_at_key H K sB r)
    · rw [keepState_buckets_of_ne H K sB r k h]
      exact inv.bEquiv k
  · exact keepState_hom H K T sB r htT inv.homB
  · intro h hh
    unfold keepState at hh
    dsimp only at hh
    rcases Finset.mem_insert.mp hh with rfl | hold
    · exact ⟨pyStrip r.text, htT, rfl, keepState_buckets_at_key H K sB r⟩
    · obtain ⟨x, hxT, hxH, hxB⟩ := inv.link h hold
      exact ⟨x, hxT, hxH, keepState_buckets_mono H K sB r _ hxB⟩

theorem simInv_keepBoth (H K : List Char → ℕ) (T : List (List Char))
    (sA sB : CState) (inv : SimInv H K T sA sB) (r : CRec)
    (htT : pyStrip r.text ∈ T) :
    SimInv H K T (keepState H K sA r) (keepState H K sB r) := by
  refine ⟨?_, ?_, ?_, ?_, ?_⟩
  · exact Finset.insert_subset_insert _ inv.seenSub
  · intro k
    by_cases h : k = K (normText (pyStrip r.text))
    · subst h
      constructor
      · intro hc
        exact absurd hc (keepState_buckets_at_key H K sA r)
      · intro hc
        exact absurd hc (keepState_buckets_at_key H K sB r)
    · rw [keepState_buckets_of_ne H K sA r k h,
        keepState_buckets_of_ne H K sB r k h]
      exact inv.bEquiv k
  · exact keepState_hom H K T sA r htT inv.homA
  · exact keepState_hom H K T sB r htT inv.homB
  · intro h hh
    unfold keepState at hh
    dsimp only at hh
    rcases Finset.mem_insert.mp hh with rfl | hold
    · exact ⟨pyStrip r.text, htT, rfl, keepState_buckets_at_key H K sB r⟩
    · obtain ⟨x, hxT, hxH, hxB⟩ := inv.link h hold
      exact ⟨x, hxT, hxH, keepState_buckets_mono H K sB r _ hxB⟩

theorem filter_near_cons (tr : List (CRec × CDecision)) (r : CRec)
    (d : CDecision) :
    (((r, d) :: tr).filter (fun p => p.2 = CDecision.nearDup)).length =
      (if d = CDecision.nearDup then 1 else 0) +
        (tr.filter (fun p => p.2 = CDecision.nearDup)).length := by
  rw [List.filter_cons]
  by_cases hd : d = CDecision.nearDup
  · subst hd
    simp
    omega
  · simp [hd]

theorem bucket_any_const (τ : ℚ) (sh : Finset (List Char))
    (bucket : List (ℕ × Finset (List Char))) (hne : bucket ≠ [])
    (hhom : ∀ p ∈ bucket, p.2 = sh) :
    (bucket.any (fun p => decide (τ ≤ jaccard sh p.2))) =
      decide (τ ≤ jaccard sh sh) := by
  cases hc : decide (τ ≤ jaccard sh sh) with
  | false =>
    rw [List.any_eq_false]
    intro p hp
    rw [hhom p hp, hc]
    simp
  | true =>
    rw [List.any_eq_true]
    obtain ⟨q, hq⟩ := List.exists_mem_of_ne_nil bucket hne
    refine ⟨q, hq, ?_⟩
    rw [hhom q hq]
    exact hc

theorem condenseGo_near_mono (H K : List Char → ℕ) (τ1 τ2 : ℚ)
    (T : List (List Char)) (hτ : τ1 ≤ τ2)
    (hH : ∀ x ∈ T, ∀ y ∈ T, H x = H y → x = y)
    (hK : ∀ x ∈ T, ∀ y ∈ T,
      K (normText x) = K (normText y) → normText x = normText y) :
    ∀ rs : List CRec, (∀ r ∈ rs, pyStrip r.text ∈ T) →
      ∀ sA sB : CState, SimInv H K T sA sB →
      ((condenseGo H K τ2 sB rs).2.filter
        (fun p => p.2 = CDecision.nearDup)).length ≤
      ((condenseGo H K τ1 sA rs).2.filter
        (fun p => p.2 = CDecision.nearDup)).length := by
  intro rs
  induction rs with
  | nil => intro _ sA sB _; simp [condenseGo]
  | cons r rs ih =>
    intro hT sA sB inv
    have htT : pyStrip r.text ∈ T := hT r (List.mem_cons_self r rs)
    have hTt : ∀ r' ∈ rs, pyStrip r'.text ∈ T :=
      fun r' hr' => hT r' (List.mem_cons_of_mem r hr')
    by_cases ht : pyStrip r.text = []
    · rw [condenseGo_cons_none H K τ1 sA sA r rs (condenseStep_skip H K τ1 sA r ht),
        condenseGo_cons_none H K τ2 sB sB r rs (condenseStep_skip H K τ2 sB r ht)]
      exact ih hTt sA sB inv
    · by_cases hexA : H (pyStrip r.text) ∈ sA.seen
      · have hexB : H (pyStrip r.text) ∈ sB.seen := inv.seenSub hexA
        rw [condenseGo_cons_some H K τ1 sA sA r rs CDecision.exactDup
            (condenseStep_exact H K τ1 sA r ht hexA),
          condenseGo_cons_some H K τ2 sB sB r rs CDecision.exactDup
            (condenseStep_exact H K τ2 sB r ht hexB)]
        have hIH := ih hTt sA sB inv
        simp only [filter_near_cons]
        simp
        exact hIH
      · by_cases hexB : H (pyStrip r.text) ∈ sB.seen
        · rw [condenseGo_cons_some H K τ2 sB sB r rs CDecision.exactDup
            (condenseStep_exact H K τ2 sB r ht hexB)]
          by_cases hnA : (sA.buckets (K (normText (pyStrip r.text)))).any
              (fun p => decide (τ1 ≤ jaccard (shingles (pyStrip r.text)) p.2)) = true
          · rw [condenseGo_cons_some H K τ1 sA sA r rs CDecision.nearDup
              (condenseStep_near H K τ1 sA r ht hexA hnA)]
            have hIH := ih hTt sA sB inv
            simp only [filter_near_cons]
            simp
            omega
          · rw [condenseGo_cons_some H K τ1 sA _ r rs CDecision.kept
              (condenseStep_keep2 H K τ1 sA r ht hexA
                (Bool.eq_false_iff.mpr hnA))]
            have hbB : sB.buckets (K (normText (pyStrip r.text))) ≠ [] := by
              obtain ⟨x, hxT, hxH, hxB⟩ := inv.link _ hexB
              have hx : x = pyStrip r.text := hH x hxT _ htT hxH
              rw [hx] at hxB
              exact hxB
            have hIH := ih hTt (keepState H K sA r) sB
              (simInv_keepA H K T sA sB inv r htT hexB hbB)
            simp only [filter_near_cons]
            simp
            exact hIH
        · by_cases hbB : sB.buckets (K (normText (pyStrip r.text))) = []
          · have hbA : sA.buckets (K (normText (pyStrip r.text))) = [] :=
              (inv.bEquiv _).mpr hbB
            have hnA : (sA.buckets (K (normText (pyStrip r.text)))).any
                (fun p => decide (τ1 ≤ jaccard (shingles (pyStrip r.text)) p.2)) =
                  false := by
              rw [hbA]
              rfl
            have hnB : (sB.buckets (K (normText (pyStrip r.text)))).any
                (fun p => decide (τ2 ≤ jaccard (shingles (pyStrip r.text)) p.2)) =
                  false := by
              rw [hbB]
              rfl
            rw [condenseGo_cons_some H K τ1 sA _ r rs CDecision.kept
                (condenseStep_keep2 H K τ1 sA r ht hexA hnA),
              condenseGo_cons_some H K τ2 sB _ r rs CDecision.kept
                (condenseStep_keep2 H K τ2 sB r ht hexB hnB)]
            have hIH := ih hTt (keepState H K sA r) (keepState H K sB r)
              (simInv_keepBoth H K T sA sB inv r htT)
            simp only [filter_near_cons]
            simp
            exact hIH
          · have hbA : sA.buckets (K (normText (pyStrip r.text))) ≠ [] :=
              fun h => hbB ((inv.bEquiv _).mp h)
            have hhomA : ∀ p ∈ sA.buckets (K (normText (pyStrip r.text))),
                p.2 = shingles (pyStrip r.text) := by
              intro p hp
              obtain ⟨x, hxT, hxK, hx2⟩ := inv.homA _ p hp
              rw [hx2]
              exact shingles_congr x _ (hK x hxT _ htT hxK)
            have hhomB : ∀ p ∈ sB.buckets (K (normText (pyStrip r.text))),
                p.2 = shingles (pyStrip r.text) := by
              intro p hp
              obtain ⟨x, hxT, hxK, hx2⟩ := inv.homB _ p hp
              rw [hx2]
              exact shingles_congr x _ (hK x hxT _ htT hxK)
            have hanyA := bucket_any_const τ1 (shingles (pyStrip r.text))
              (sA.buckets (K (normText (pyStrip r.text)))) hbA hhomA
            have hanyB := bucket_any_const τ2 (shingles (pyStrip r.text))
              (sB.buckets (K (normText (pyStrip r.text)))) hbB hhomB
            by_cases hj2 : τ2 ≤ jaccard (shingles (pyStrip r.text))
                (shingles (pyStrip r.text))
            · have hj1 : τ1 ≤ jaccard (shingles (pyStrip r.text))
                  (shingles (pyStrip r.text)) := le_trans hτ hj2
              rw [condenseGo_cons_some H K τ1 sA sA r rs CDecision.nearDup
                  (condenseStep_near H K τ1 sA r ht hexA
                    (by rw [hanyA]; exact decide_eq_true hj1)),
                condenseGo_cons_some H K τ2 sB sB r rs CDecision.nearDup
                  (condenseStep_near H K τ2 sB r ht hexB
                    (by rw [hanyB]; exact decide_eq_true hj2))]
              have hIH := ih hTt sA sB inv
              simp only [filter_near_cons]
              simp
              exact hIH
            · have hnB : (sB.buckets (K (normText (pyStrip r.text)))).any
                  (fun p => decide (τ2 ≤ jaccard (shingles (pyStrip r.text)) p.2)) =
                    false := by
                rw [hanyB]
                exact decide_eq_false hj2
              rw [condenseGo_cons_some H K τ2 sB _ r rs CDecision.kept
                (condenseStep_keep2 H K τ2 sB r ht hexB hnB)]
              by_cases hj1 : τ1 ≤ jaccard (pyStrip r.text |> shingles)
                  (pyStrip r.text |> shingles)
              · rw [condenseGo_cons_some H K τ1 sA sA r rs CDecision.nearDup
                  (condenseStep_near H K τ1 sA r ht hexA
                    (by rw [hanyA]; exact decide_eq_true hj1))]
                have hIH := ih hTt sA (keepState H K sB r)
                  (simInv_keepB H K T sA sB inv r htT hbA)
                simp only [filter_near_cons]
                simp
                omega
              · rw [condenseGo_cons_some H K τ1 sA _ r rs CDecision.kept
                  (condenseStep_keep2 H K τ1 sA r ht hexA
                    (by rw [hanyA]; exact decide_eq_false hj1))]
                have hIH := ih hTt (keepState H K sA r) (keepState H K sB r)
                  (simInv_keepBoth H K T sA sB inv r htT)
                simp only [filter_near_cons]
                simp
                exact hIH

/-- C4: with SHA-256 modelled as collision-free on the input's texts (the
digest `H` injective on the stripped texts, the 64-bit simkey prefix `K`
injective on the normalized texts), raising the near-duplicate threshold
from `τ1` to `τ2` never increases the number of records archived as
near-duplicates. -/
theorem condense_near_monotone (H K : List Char → ℕ) (τ1 τ2 : ℚ)
    (rs : List CRec) (_h0 : 0 ≤ τ1) (h12 : τ1 ≤ τ2) (_h1 : τ2 ≤ 1)
    (hH : ∀ x ∈ rs.map (fun r => pyStrip r.text),
      ∀ y ∈ rs.map (fun r => pyStrip r.text), H x = H y → x = y)
    (hK : ∀ x ∈ rs.map (fun r => pyStrip r.text),
      ∀ y ∈ rs.map (fun r => pyStrip r.text),
      K (normText x) = K (normText y) → normText x = normText y) :
    nearArchivedCount H K τ2 rs ≤ nearArchivedCount H K τ1 rs := by
  have hT : ∀ r ∈ rs, pyStrip r.text ∈ rs.map (fun r => pyStrip r.text) :=
    fun r hr => List.mem_map_of_mem _ hr
  have inv0 : SimInv H K (rs.map (fun r => pyStrip r.text))
      initCState initCState := by
    refine ⟨Finset.Subset.refl _, fun k => Iff.rfl, ?_, ?_, ?_⟩
    · intro k p hp
      simp [initCState] at hp
    · intro k p hp
      simp [initCState] at hp
    · intro h hh
      simp [initCState] at hh
  exact condenseGo_near_mono H K τ1 τ2 _ h12 hH hK rs hT
    initCState initCState inv0

/-- C4 witness: a concrete two-record stream, thresholds `0 ≤ 88/100 ≤ 1`,
length-based digests (injective on the two distinct texts). -/
theorem condense_near_monotone_witness :
    nearArchivedCount List.length List.length (88 / 100)
      [⟨['a', 'b', 'c'], 0⟩, ⟨['x', 'y'], 1⟩] ≤
    nearArchivedCount List.length List.length 0
      [⟨['a', 'b', 'c'], 0⟩, ⟨['x', 'y'], 1⟩] :=
  condense_near_monotone List.length List.length 0 (88 / 100)
    [⟨['a', 'b', 'c'], 0⟩, ⟨['x', 'y'], 1⟩]
    (le_refl 0) (by norm_num) (by norm_num) (by decide) (by decide)
